import Mathlib

/-!
Verification development for `c2rust-transpile/src/cfg/inc_cleanup.rs`.

The module removes extraneous break statements generated by the incremental
relooper.  We embed the statement/expression AST fragment the pass inspects,
the `IncCleanup` state, the classifier `is_idempotent_tail_expr`, the driver
`remove_tail_expr` and the normalizer `cleanup_if`, and prove properties about
them.  Metadata fields never inspected by the pass (spans, node ids, attrs,
arm patterns and guards) are elided; AST constructors the pass only ever hits
with a catch-all arm are folded into `other` constructors carrying a tag.
-/

/-- Modelled from the spec: the relooper label type (`Label` in the cfg module,
defined outside the sources at hand).  The spec describes it as an opaque
identity ("Equality must be by identity, not by any derived textual form")
which the original implementation compares through a derived printed form
(`pretty_print`); we model the identity as a numeric id together with the
printed text, assuming no injectivity of the printed form. -/
structure Label where
  id : Nat
  printed : String
deriving DecidableEq

/-- The function `Label::pretty_print`: the derived textual form of a relooper label. -/
def Label.pretty_print (l : Label) : String := l.printed

/-- Modelled from the spec: the `ImplicitReturnType` enum (defined outside the
sources at hand).  `Main` and `Void` are the two variants the source matches by
name; every other value of the `in_tail` option falls into the catch-all arm of
the classifier. -/
inductive ImplicitReturnType where
  | Main
  | Void
deriving DecidableEq

/-- The type `LitIntType`: suffix information of an integer literal.  The payload types
of the suffixed forms are elided: the pass only ever matches `Unsuffixed`. -/
inductive LitIntType where
  | unsuffixed
  | signed
  | unsigned
deriving DecidableEq

/-- The type `LitKind`: literal payloads.  Only `Int` is ever matched by the pass; the
remaining variants stand for all other literal forms. -/
inductive LitKind where
  | int (value : Nat) (suffix : LitIntType)
  | floatLit (text : String)
  | boolLit (b : Bool)
  | strLit (s : String)
deriving DecidableEq

mutual
/-- The type `ExprKind`: the expression variants `inc_cleanup.rs` inspects.  A block or
break label in the AST is an ident, modelled as its string; `other` stands for
every variant the pass only meets through catch-all arms. -/
inductive Expr where
  | if_ (cond : Expr) (body : List Stmt) (els : Option Expr)
  | match_ (scrutinee : Expr) (cases : List Arm)
  | block (stmts : List Stmt) (label : Option String)
  | break_ (label : Option String) (value : Option Expr)
  | ret (value : Option Expr)
  | lit (node : LitKind)
  | other (tag : Nat)

/-- The type `Arm`: a match arm; the pass only reads its body expression. -/
inductive Arm where
  | mk (body : Expr)

/-- The type `StmtKind`: expression statement (`Expr`), semicolon statement (`Semi`),
and `other` for the remaining statement kinds the pass never inspects. -/
inductive Stmt where
  | expr (e : Expr)
  | semi (e : Expr)
  | other (tag : Nat)
end

/-- The body expression of a match arm. -/
def Arm.body : Arm → Expr
  | Arm.mk b => b

/-- The `IncCleanup` pass state: the optional implicit-return context and the
break label of the enclosing labelled block. -/
structure IncCleanup where
  in_tail : Option ImplicitReturnType
  brk_lbl : Label

/-- The expression `mk().label(s).ident`: building an AST label from a string yields an ident
that compares equal exactly when the strings do; modelled as the string. -/
def mk_label_ident (s : String) : String := s

/-- The classifier `IncCleanup::is_idempotent_tail_expr`: a statement is an idempotent tail
exactly when it is a `Semi` statement whose expression matches the active
context: under `Some(Main)` a `return 0` with an unsuffixed integer literal,
under `Some(Void)` a bare `return`, and in the catch-all arm a valueless
`break` whose label ident equals the ident built from the pretty-printed
`brk_lbl`. -/
def IncCleanup.is_idempotent_tail_expr (c : IncCleanup) (stmt : Stmt) : Bool :=
  match stmt with
  | Stmt.semi tail_expr =>
    match c.in_tail with
    | some ImplicitReturnType.Main =>
      match tail_expr with
      | Expr.ret (some (Expr.lit (LitKind.int 0 LitIntType.unsuffixed))) => true
      | _ => false
    | some ImplicitReturnType.Void =>
      match tail_expr with
      | Expr.ret none => true
      | _ => false
    | _ =>
      match tail_expr with
      | Expr.break_ (some blbl) none => blbl == mk_label_ident c.brk_lbl.pretty_print
      | _ => false
  | _ => false

/-- The normalizer `cleanup_if`: collapse an expression statement holding an `If` whose else
branch is an unlabelled empty block into the same `If` with no else branch;
every other statement is returned unchanged. -/
def cleanup_if (stmt : Stmt) : Stmt :=
  match stmt with
  | Stmt.expr (Expr.if_ cond body (some (Expr.block [] none))) =>
      Stmt.expr (Expr.if_ cond body none)
  | _ => stmt

mutual
/-- The engine `IncCleanup::remove_tail_expr`: pop the last statement; if the classifier
judges it idempotent, drop it and return `true`; otherwise recurse into the
tail positions nested in it (with the short-circuiting `removed || recurse`
accumulation of the source), apply `cleanup_if`, push the statement back and
return the accumulated flag.  The functional embedding walks to the last
element of the list, leaving the prefix untouched exactly as the in-place
`pop`/`push` does. -/
def IncCleanup.remove_tail_expr (c : IncCleanup) : List Stmt → List Stmt × Bool
  | [] => ([], false)
  | [stmt] =>
      if c.is_idempotent_tail_expr stmt then ([], true)
      else
        let r := IncCleanup.removeTailInStmt c stmt
        ([cleanup_if r.1], r.2)
  | stmt :: rest1 :: rest =>
      let r := IncCleanup.remove_tail_expr c (rest1 :: rest)
      (stmt :: r.1, r.2)

/-- The `if let StmtKind::Expr(expr) = stmt.node` recursion step of
`remove_tail_expr`: only expression statements are recursed into. -/
def IncCleanup.removeTailInStmt (c : IncCleanup) (stmt : Stmt) : Stmt × Bool :=
  match stmt with
  | Stmt.expr e =>
      let r := IncCleanup.removeTailInExpr c e
      (Stmt.expr r.1, r.2)
  | _ => (stmt, false)

/-- The `match expr.node` of `remove_tail_expr`: recurse into the then block,
then (only when nothing was removed yet, because `||` short-circuits) into an
else branch that is literally a block; for a `Match`, fold over the arms with
the same short-circuiting accumulation. -/
def IncCleanup.removeTailInExpr (c : IncCleanup) (e : Expr) : Expr × Bool :=
  match e with
  | Expr.if_ cond body els =>
      let rb := IncCleanup.remove_tail_expr c body
      match els with
      | some (Expr.block blk lbl) =>
          if rb.2 then
            (Expr.if_ cond rb.1 (some (Expr.block blk lbl)), rb.2)
          else
            let re := IncCleanup.remove_tail_expr c blk
            (Expr.if_ cond rb.1 (some (Expr.block re.1 lbl)), re.2)
      | _ => (Expr.if_ cond rb.1 els, rb.2)
  | Expr.match_ scrut cases =>
      let rcs := IncCleanup.removeTailInArms c cases false
      (Expr.match_ scrut rcs.1, rcs.2)
  | _ => (e, false)

/-- The `for case in cases` loop of `remove_tail_expr`: every arm whose body is
a block is a candidate, but the recursion into an arm only runs while the
accumulated flag is still false (`removed || recurse` short-circuits). -/
def IncCleanup.removeTailInArms (c : IncCleanup) : List Arm → Bool → List Arm × Bool
  | [], removed => ([], removed)
  | Arm.mk body :: rest, removed =>
      match body with
      | Expr.block stmts lbl =>
          if removed then
            let r := IncCleanup.removeTailInArms c rest removed
            (Arm.mk (Expr.block stmts lbl) :: r.1, r.2)
          else
            let rs := IncCleanup.remove_tail_expr c stmts
            let r := IncCleanup.removeTailInArms c rest rs.2
            (Arm.mk (Expr.block rs.1 lbl) :: r.1, r.2)
      | _ =>
          let r := IncCleanup.removeTailInArms c rest removed
          (Arm.mk body :: r.1, r.2)
end

/-- The spec's `Context` type (section 3): exactly one of `ImplicitReturnZero`,
`ImplicitReturnVoid`, `ImplicitBreakTo(L)`. -/
inductive Context where
  | implicitReturnZero
  | implicitReturnVoid
  | implicitBreakTo (l : Label)

/-- The engine state realizing a spec `Context`: the return contexts set
`in_tail` to `Some(Main)` respectively `Some(Void)` (the break label argument
is irrelevant to the classifier there), and `ImplicitBreakTo(L)` is realized by
an absent `in_tail` together with `brk_lbl = L`. -/
def Context.toCleanup : Context → Label → IncCleanup
  | Context.implicitReturnZero, l => IncCleanup.mk (some ImplicitReturnType.Main) l
  | Context.implicitReturnVoid, l => IncCleanup.mk (some ImplicitReturnType.Void) l
  | Context.implicitBreakTo lbl, _ => IncCleanup.mk none lbl

/-- The tail classifier decision table written from the spec (section 4.2):
only a bare effect-expression (a `Semi` statement) is eligible; it matches
exactly a Return of the integer literal 0 under `ImplicitReturnZero`, a
valueless Return under `ImplicitReturnVoid`, and a valueless Break naming
label `L` (an AST break names its target by the label's printed ident) under
`ImplicitBreakTo(L)`. -/
def specIdempotentTail : Context → Stmt → Bool
  | ctx, Stmt.semi e =>
    match ctx, e with
    | Context.implicitReturnZero,
        Expr.ret (some (Expr.lit (LitKind.int 0 LitIntType.unsuffixed))) => true
    | Context.implicitReturnVoid, Expr.ret none => true
    | Context.implicitBreakTo lbl, Expr.break_ (some name) none =>
        name == lbl.pretty_print
    | _, _ => false
  | _, _ => false

/-- The statement shape the If Simplifier collapses, written from the spec
(section 4.3): a statement-expression wrapping a Conditional whose else branch
is an (unlabelled) empty block. -/
def collapsibleIf : Stmt → Bool
  | Stmt.expr (Expr.if_ _ _ (some (Expr.block [] none))) => true
  | _ => false

/-- Whether recursing into one match arm would remove a tail statement: the arm
body must be literally a block, and `remove_tail_expr` on that block's
statements must succeed. -/
def armRemovalFlag (c : IncCleanup) : Arm → Bool
  | Arm.mk (Expr.block stmts _) => (c.remove_tail_expr stmts).2
  | _ => false

/-! ### Unfolding equations of the engine -/

theorem remove_tail_expr_nil (c : IncCleanup) :
    c.remove_tail_expr [] = ([], false) := rfl

theorem remove_tail_expr_single (c : IncCleanup) (s : Stmt) :
    c.remove_tail_expr [s] =
      if c.is_idempotent_tail_expr s then ([], true)
      else ([cleanup_if (c.removeTailInStmt s).1], (c.removeTailInStmt s).2) := rfl

theorem remove_tail_expr_cons_cons (c : IncCleanup) (a b : Stmt) (l : List Stmt) :
    c.remove_tail_expr (a :: b :: l) =
      (a :: (c.remove_tail_expr (b :: l)).1, (c.remove_tail_expr (b :: l)).2) := rfl

/-- The engine leaves every element but the last untouched: on `init ++ [s]` it
either drops `s` (when the classifier fires) or reinserts the recursively
processed and simplified `s` after the unchanged `init`. -/
theorem remove_tail_expr_concat (c : IncCleanup) (s : Stmt) :
    ∀ init : List Stmt,
      c.remove_tail_expr (init ++ [s]) =
        if c.is_idempotent_tail_expr s then (init, true)
        else (init ++ [cleanup_if (c.removeTailInStmt s).1], (c.removeTailInStmt s).2) := by
  intro init
  induction init with
  | nil =>
      rw [List.nil_append, remove_tail_expr_single]
      by_cases h : c.is_idempotent_tail_expr s <;> simp [h]
  | cons a t ih =>
      rcases t with _ | ⟨b, u⟩
      · simp only [List.nil_append] at ih
        simp only [List.cons_append, List.nil_append]
        rw [remove_tail_expr_cons_cons, ih]
        by_cases h : c.is_idempotent_tail_expr s <;> simp [h]
      · simp only [List.cons_append] at ih
        simp only [List.cons_append]
        rw [remove_tail_expr_cons_cons, ih]
        by_cases h : c.is_idempotent_tail_expr s <;> simp [h]

/-- A call on a nonempty sequence that removes nothing leaves the sequence
nonempty. -/
theorem remove_tail_expr_ne_nil (c : IncCleanup) (a : Stmt) (l : List Stmt) :
    (c.remove_tail_expr (a :: l)).2 = false → (c.remove_tail_expr (a :: l)).1 ≠ [] := by
  rcases l with _ | ⟨b, u⟩
  · rw [remove_tail_expr_single]
    by_cases h : c.is_idempotent_tail_expr a <;> simp [h]
  · rw [remove_tail_expr_cons_cons]
    simp

/-! ### Properties of the If Simplifier -/

theorem cleanup_if_semi (e : Expr) : cleanup_if (Stmt.semi e) = Stmt.semi e := rfl

theorem cleanup_if_other (t : Nat) : cleanup_if (Stmt.other t) = Stmt.other t := rfl

/-- A statement that is not of the collapsible shape is returned unchanged. -/
theorem cleanup_if_of_not_collapsible (s : Stmt) (h : collapsibleIf s = false) :
    cleanup_if s = s := by
  unfold cleanup_if
  split
  · simp [collapsibleIf] at h
  · rfl

/-- The If Simplifier is idempotent. -/
theorem cleanup_if_cleanup_if (s : Stmt) : cleanup_if (cleanup_if s) = cleanup_if s := by
  by_cases h : collapsibleIf s = true
  · unfold collapsibleIf at h
    split at h
    · rfl
    · simp at h
  · have h2 := cleanup_if_of_not_collapsible s (by simpa using h)
    rw [h2, h2]

/-- The If Simplifier never produces a `Semi` statement from a non-`Semi`
statement, so it cannot make a statement idempotent. -/
theorem is_idempotent_cleanup_if (c : IncCleanup) (s : Stmt)
    (h : c.is_idempotent_tail_expr s = false) :
    c.is_idempotent_tail_expr (cleanup_if s) = false := by
  by_cases hc : collapsibleIf s = true
  · unfold collapsibleIf at hc
    split at hc
    · rfl
    · simp at hc
  · rw [cleanup_if_of_not_collapsible s (by simpa using hc)]
    exact h

/-! ### The arm loop -/

theorem removeTailInArms_nil (c : IncCleanup) (acc : Bool) :
    c.removeTailInArms [] acc = ([], acc) := rfl

theorem removeTailInArms_cons_block (c : IncCleanup) (stmts : List Stmt)
    (lbl : Option String) (rest : List Arm) :
    c.removeTailInArms (Arm.mk (Expr.block stmts lbl) :: rest) false =
      ((Arm.mk (Expr.block (c.remove_tail_expr stmts).1 lbl) ::
          (c.removeTailInArms rest (c.remove_tail_expr stmts).2).1),
        (c.removeTailInArms rest (c.remove_tail_expr stmts).2).2) := rfl

theorem removeTailInArms_cons_block_true (c : IncCleanup) (stmts : List Stmt)
    (lbl : Option String) (rest : List Arm) :
    c.removeTailInArms (Arm.mk (Expr.block stmts lbl) :: rest) true =
      ((Arm.mk (Expr.block stmts lbl) :: (c.removeTailInArms rest true).1),
        (c.removeTailInArms rest true).2) := rfl

/-- Once the accumulated flag is true, the remaining arms pass through
untouched. -/
theorem removeTailInArms_true (c : IncCleanup) :
    ∀ cases : List Arm, c.removeTailInArms cases true = (cases, true) := by
  intro cases
  induction cases with
  | nil => rfl
  | cons arm rest ih =>
      rcases arm with ⟨body⟩
      rcases body with cond | s | bs | bl | v | k | t <;>
        simp [IncCleanup.removeTailInArms, ih]

/-- The flag produced by the arm loop is the OR of the incoming flag with the
independent per-arm removal flags: even though the loop stops recursing after
the first success, skipped arms cannot change the disjunction. -/
theorem removeTailInArms_flag (c : IncCleanup) :
    ∀ (cases : List Arm) (acc : Bool),
      (c.removeTailInArms cases acc).2 = (acc || cases.any (armRemovalFlag c)) := by
  intro cases
  induction cases with
  | nil => intro acc; simp [removeTailInArms_nil]
  | cons arm rest ih =>
      intro acc
      rcases arm with ⟨body⟩
      rcases body with cond | s | bs | bl | v | k | t <;>
        rcases acc with _ | _ <;>
        simp [IncCleanup.removeTailInArms, ih, armRemovalFlag, removeTailInArms_true,
          Bool.or_comm, Bool.or_assoc, Bool.or_left_comm]

/-! ### More unfolding equations -/

theorem is_idempotent_expr (c : IncCleanup) (e : Expr) :
    c.is_idempotent_tail_expr (Stmt.expr e) = false := rfl

theorem is_idempotent_other (c : IncCleanup) (t : Nat) :
    c.is_idempotent_tail_expr (Stmt.other t) = false := rfl

theorem removeTailInStmt_expr (c : IncCleanup) (e : Expr) :
    c.removeTailInStmt (Stmt.expr e) =
      (Stmt.expr (c.removeTailInExpr e).1, (c.removeTailInExpr e).2) := rfl

theorem removeTailInStmt_semi (c : IncCleanup) (e : Expr) :
    c.removeTailInStmt (Stmt.semi e) = (Stmt.semi e, false) := rfl

theorem removeTailInStmt_other (c : IncCleanup) (t : Nat) :
    c.removeTailInStmt (Stmt.other t) = (Stmt.other t, false) := rfl

theorem removeTailInExpr_if_block (c : IncCleanup) (cond : Expr) (body blk : List Stmt)
    (lbl : Option String) :
    c.removeTailInExpr (Expr.if_ cond body (some (Expr.block blk lbl))) =
      if (c.remove_tail_expr body).2 then
        (Expr.if_ cond (c.remove_tail_expr body).1 (some (Expr.block blk lbl)),
          (c.remove_tail_expr body).2)
      else
        (Expr.if_ cond (c.remove_tail_expr body).1
            (some (Expr.block (c.remove_tail_expr blk).1 lbl)),
          (c.remove_tail_expr blk).2) := rfl

theorem removeTailInExpr_if_none (c : IncCleanup) (cond : Expr) (body : List Stmt) :
    c.removeTailInExpr (Expr.if_ cond body none) =
      (Expr.if_ cond (c.remove_tail_expr body).1 none, (c.remove_tail_expr body).2) := rfl

theorem removeTailInExpr_match (c : IncCleanup) (scrut : Expr) (cases : List Arm) :
    c.removeTailInExpr (Expr.match_ scrut cases) =
      (Expr.match_ scrut (c.removeTailInArms cases false).1,
        (c.removeTailInArms cases false).2) := rfl

theorem collapsibleIf_else_cons (cond : Expr) (body : List Stmt) (a : Stmt)
    (l : List Stmt) (lbl : Option String) :
    collapsibleIf (Stmt.expr (Expr.if_ cond body (some (Expr.block (a :: l) lbl)))) = false := by
  rcases lbl with _ | s <;> rfl

theorem collapsibleIf_else_labelled (cond : Expr) (body bs : List Stmt) (s : String) :
    collapsibleIf (Stmt.expr (Expr.if_ cond body (some (Expr.block bs (some s))))) = false := by
  rcases bs with _ | ⟨a, l⟩ <;> rfl

/-! ### Claims C9, C10, C8 -/

/-- C9: `remove_tail_expr` is total: the definition is accepted as a
structurally terminating function, every invocation yields a sequence and a
boolean, and on an empty sequence it returns `false` leaving the sequence
empty. -/
theorem C9_remove_tail_expr_total :
    (∀ (c : IncCleanup) (stmts : List Stmt),
      ∃ (out : List Stmt) (flag : Bool), c.remove_tail_expr stmts = (out, flag)) ∧
    (∀ c : IncCleanup, c.remove_tail_expr [] = ([], false)) :=
  ⟨fun c stmts => ⟨(c.remove_tail_expr stmts).1, (c.remove_tail_expr stmts).2, rfl⟩,
    fun _ => rfl⟩

/-- C10: an engine built with `in_tail = None` hits the catch-all arm of the
classifier and thus behaves as the break context for `brk_lbl`: a
semicolon-terminated valueless Break naming `brk_lbl` is judged idempotent and
is removed. -/
theorem C10_none_in_tail_is_break_context :
    ∀ lbl : Label,
      (IncCleanup.mk none lbl).is_idempotent_tail_expr
          (Stmt.semi (Expr.break_ (some lbl.pretty_print) none)) = true ∧
      (IncCleanup.mk none lbl).remove_tail_expr
          [Stmt.semi (Expr.break_ (some lbl.pretty_print) none)] = ([], true) := by
  intro lbl
  have h : (IncCleanup.mk none lbl).is_idempotent_tail_expr
      (Stmt.semi (Expr.break_ (some lbl.pretty_print) none)) = true := by
    simp [IncCleanup.is_idempotent_tail_expr, mk_label_ident]
  exact ⟨h, by rw [remove_tail_expr_single, if_pos h]⟩

/-- C8: mutation is local and complete: every element of the visited sequence
except the last is unchanged, and the sequence is left either with its terminal
statement removed or with a single (possibly simplified) statement back in the
last position. -/
theorem C8_local_complete_mutation :
    ∀ (c : IncCleanup) (stmts : List Stmt),
      (c.remove_tail_expr stmts).1 = stmts.dropLast ∨
      ∃ tl : Stmt, (c.remove_tail_expr stmts).1 = stmts.dropLast ++ [tl] := by
  intro c stmts
  rcases List.eq_nil_or_concat stmts with h | ⟨init, s, h⟩
  · subst h
    left
    rfl
  · subst h
    simp only [List.concat_eq_append]
    rw [remove_tail_expr_concat]
    by_cases hid : c.is_idempotent_tail_expr s
    · left
      simp [hid]
    · right
      exact ⟨cleanup_if (c.removeTailInStmt s).1, by simp [hid]⟩

/-! ### Claim C7 -/

/-- C7: the If Simplifier is pure and acts only on the outermost node: a
statement-expression wrapping a Conditional whose else branch is an empty
(unlabelled) block becomes the same Conditional with the else branch absent,
condition and then branch preserved; every statement not of that shape is
returned unchanged. -/
theorem C7_cleanup_if_characterization :
    (∀ (cond : Expr) (body : List Stmt),
      cleanup_if (Stmt.expr (Expr.if_ cond body (some (Expr.block [] none)))) =
        Stmt.expr (Expr.if_ cond body none)) ∧
    (∀ s : Stmt, collapsibleIf s = false → cleanup_if s = s) :=
  ⟨fun _ _ => rfl, cleanup_if_of_not_collapsible⟩

/-- Witness for C7 at concrete inputs: an empty unlabelled else is collapsed,
and a Conditional with a nonempty else block is returned unchanged. -/
theorem C7_witness :
    cleanup_if (Stmt.expr (Expr.if_ (Expr.other 0) []
        (some (Expr.block [Stmt.other 1] none)))) =
      Stmt.expr (Expr.if_ (Expr.other 0) [] (some (Expr.block [Stmt.other 1] none))) :=
  C7_cleanup_if_characterization.2
    (Stmt.expr (Expr.if_ (Expr.other 0) [] (some (Expr.block [Stmt.other 1] none))))
    (collapsibleIf_else_cons (Expr.other 0) [] (Stmt.other 1) [] none)

/-! ### Claim C3 -/

/-- C3 counterexample: the classifier compares labels through their
pretty-printed text, not by identity.  The labels `⟨1, "lp"⟩` and `⟨2, "lp"⟩`
are distinct identities printing to the same text, and under
`ImplicitBreakTo(⟨1, "lp"⟩)` a valueless Break naming the second label IS
judged idempotent and removed. -/
theorem C3_counterexample :
    Label.mk 1 "lp" ≠ Label.mk 2 "lp" ∧
    (IncCleanup.mk none (Label.mk 1 "lp")).is_idempotent_tail_expr
        (Stmt.semi (Expr.break_ (some ((Label.mk 2 "lp").pretty_print)) none)) = true ∧
    (IncCleanup.mk none (Label.mk 1 "lp")).remove_tail_expr
        [Stmt.semi (Expr.break_ (some ((Label.mk 2 "lp").pretty_print)) none)] =
      ([], true) := by
  refine ⟨by decide, by rfl, by rfl⟩

/-- C3 amended: label equality in the classifier is textual, on the
pretty-printed form.  A Break to a label whose printed text differs from the
printed text of the context label is never removed (with or without a value),
and a Break carrying a value is never removed at all; but two distinct labels
with identical printed text are conflated. -/
theorem C3_amended_textual_label_precision :
    (∀ (l1 : Label) (name : String) (v : Option Expr), name ≠ l1.pretty_print →
      (IncCleanup.mk none l1).remove_tail_expr [Stmt.semi (Expr.break_ (some name) v)] =
        ([Stmt.semi (Expr.break_ (some name) v)], false)) ∧
    (∀ (l1 : Label) (name : String) (e : Expr),
      (IncCleanup.mk none l1).remove_tail_expr
          [Stmt.semi (Expr.break_ (some name) (some e))] =
        ([Stmt.semi (Expr.break_ (some name) (some e))], false)) ∧
    (∀ l1 l2 : Label, l1.pretty_print = l2.pretty_print →
      (IncCleanup.mk none l1).is_idempotent_tail_expr
          (Stmt.semi (Expr.break_ (some l2.pretty_print) none)) = true) := by
  refine ⟨?_, ?_, ?_⟩
  · intro l1 name v hname
    have hid : (IncCleanup.mk none l1).is_idempotent_tail_expr
        (Stmt.semi (Expr.break_ (some name) v)) = false := by
      rcases v with _ | e <;>
        simp [IncCleanup.is_idempotent_tail_expr, mk_label_ident, hname]
    rw [remove_tail_expr_single, if_neg (by simp [hid]), removeTailInStmt_semi,
      cleanup_if_semi]
  · intro l1 name e
    have hid : (IncCleanup.mk none l1).is_idempotent_tail_expr
        (Stmt.semi (Expr.break_ (some name) (some e))) = false := rfl
    rw [remove_tail_expr_single, if_neg (by simp [hid]), removeTailInStmt_semi,
      cleanup_if_semi]
  · intro l1 l2 heq
    simp [IncCleanup.is_idempotent_tail_expr, mk_label_ident, heq]

/-- Witness for C3 at concrete inputs: under `ImplicitBreakTo(⟨0, "lp"⟩)` a
valueless Break naming `"other"` is retained unchanged. -/
theorem C3_witness :
    (IncCleanup.mk none (Label.mk 0 "lp")).remove_tail_expr
        [Stmt.semi (Expr.break_ (some "other") none)] =
      ([Stmt.semi (Expr.break_ (some "other") none)], false) :=
  C3_amended_textual_label_precision.1 (Label.mk 0 "lp") "other" none (by decide)

/-! ### Claim C1 -/

/-- C1 counterexample: Scenario A.  Under `ImplicitBreakTo(⟨0, "lp"⟩)`, on
`[Conditional(cond, Block([Break(lp)]), Some(Block([Break(lp)])))]` the engine
does NOT produce `[Conditional(cond, Block([]), None)]`: the then-block removal
succeeds, so the short-circuiting `removed || recurse` skips the else block
entirely and its Break survives. -/
theorem C1_counterexample :
    (IncCleanup.mk none (Label.mk 0 "lp")).remove_tail_expr
        [Stmt.expr (Expr.if_ (Expr.other 0)
          [Stmt.semi (Expr.break_ (some "lp") none)]
          (some (Expr.block [Stmt.semi (Expr.break_ (some "lp") none)] none)))] ≠
      ([Stmt.expr (Expr.if_ (Expr.other 0) [] none)], true) := by
  have h : (IncCleanup.mk none (Label.mk 0 "lp")).remove_tail_expr
      [Stmt.expr (Expr.if_ (Expr.other 0)
        [Stmt.semi (Expr.break_ (some "lp") none)]
        (some (Expr.block [Stmt.semi (Expr.break_ (some "lp") none)] none)))] =
      ([Stmt.expr (Expr.if_ (Expr.other 0) []
        (some (Expr.block [Stmt.semi (Expr.break_ (some "lp") none)] none)))], true) := rfl
  rw [h]
  simp

/-- C1 amended: for a Conditional whose then block and else block both end in a
valueless Break naming the context label, a single call removes the THEN
block's terminal Break and returns true, but skips the else block — the
short-circuiting accumulation never recurses into it once the then block
succeeded — so the else block's terminal Break is retained and the else branch
is not collapsed. -/
theorem C1_amended_then_only :
    ∀ (lbl : Label) (cond : Expr) (thenInit elsInit : List Stmt) (blkLbl : Option String),
      (IncCleanup.mk none lbl).remove_tail_expr
          [Stmt.expr (Expr.if_ cond
            (thenInit ++ [Stmt.semi (Expr.break_ (some lbl.pretty_print) none)])
            (some (Expr.block
              (elsInit ++ [Stmt.semi (Expr.break_ (some lbl.pretty_print) none)])
              blkLbl)))] =
        ([Stmt.expr (Expr.if_ cond thenInit
            (some (Expr.block
              (elsInit ++ [Stmt.semi (Expr.break_ (some lbl.pretty_print) none)])
              blkLbl)))], true) := by
  intro lbl cond thenInit elsInit blkLbl
  have hidem : (IncCleanup.mk none lbl).is_idempotent_tail_expr
      (Stmt.semi (Expr.break_ (some lbl.pretty_print) none)) = true := by
    simp [IncCleanup.is_idempotent_tail_expr, mk_label_ident]
  have hthen : (IncCleanup.mk none lbl).remove_tail_expr
      (thenInit ++ [Stmt.semi (Expr.break_ (some lbl.pretty_print) none)]) =
      (thenInit, true) := by
    rw [remove_tail_expr_concat, if_pos hidem]
  obtain ⟨a, l, hal⟩ : ∃ a l,
      elsInit ++ [Stmt.semi (Expr.break_ (some lbl.pretty_print) none)] = a :: l := by
    rcases elsInit with _ | ⟨x, xs⟩
    · exact ⟨_, _, rfl⟩
    · exact ⟨x, xs ++ [Stmt.semi (Expr.break_ (some lbl.pretty_print) none)], rfl⟩
  rw [hal, remove_tail_expr_single, if_neg (by simp [is_idempotent_expr]),
    removeTailInStmt_expr, removeTailInExpr_if_block, hthen]
  simp only [if_pos]
  rw [cleanup_if_of_not_collapsible _ (collapsibleIf_else_cons cond thenInit a l blkLbl)]

/-! ### Claim C2 -/

/-- C2 counterexample: under `ImplicitReturnZero`, a Match with two arms whose
block bodies each end in `return 0;` is cleaned only in the first arm: the
short-circuiting accumulation skips the recursion into every arm after the
first successful one, so the second arm keeps its `return 0;` and the output is
not the both-arms-cleaned tree the claim implies. -/
theorem C2_counterexample :
    (IncCleanup.mk (some ImplicitReturnType.Main) (Label.mk 0 "lp")).remove_tail_expr
        [Stmt.expr (Expr.match_ (Expr.other 0)
          [Arm.mk (Expr.block
            [Stmt.semi (Expr.ret (some (Expr.lit (LitKind.int 0 LitIntType.unsuffixed))))]
            none),
           Arm.mk (Expr.block
            [Stmt.semi (Expr.ret (some (Expr.lit (LitKind.int 0 LitIntType.unsuffixed))))]
            none)])] ≠
      ([Stmt.expr (Expr.match_ (Expr.other 0)
          [Arm.mk (Expr.block [] none), Arm.mk (Expr.block [] none)])], true) := by
  have h : (IncCleanup.mk (some ImplicitReturnType.Main) (Label.mk 0 "lp")).remove_tail_expr
      [Stmt.expr (Expr.match_ (Expr.other 0)
        [Arm.mk (Expr.block
          [Stmt.semi (Expr.ret (some (Expr.lit (LitKind.int 0 LitIntType.unsuffixed))))]
          none),
         Arm.mk (Expr.block
          [Stmt.semi (Expr.ret (some (Expr.lit (LitKind.int 0 LitIntType.unsuffixed))))]
          none)])] =
      ([Stmt.expr (Expr.match_ (Expr.other 0)
        [Arm.mk (Expr.block [] none),
         Arm.mk (Expr.block
          [Stmt.semi (Expr.ret (some (Expr.lit (LitKind.int 0 LitIntType.unsuffixed))))]
          none)])], true) := rfl
  rw [h]
  simp

/-- C2 amended: the recursion into the arms stops mutating at the first arm
whose cleanup succeeds (later arms are skipped by the short-circuiting
accumulation), but because the arms are independent the returned flag still
equals the logical OR, across all arms whose body is literally a block, of
whether cleaning that arm's block would remove a tail statement. -/
theorem C2_amended_flag_is_or :
    ∀ (c : IncCleanup) (scrut : Expr) (cases : List Arm),
      (c.remove_tail_expr [Stmt.expr (Expr.match_ scrut cases)]).2 =
        cases.any (armRemovalFlag c) := by
  intro c scrut cases
  rw [remove_tail_expr_single, if_neg (by simp [is_idempotent_expr]),
    removeTailInStmt_expr, removeTailInExpr_match]
  simp [removeTailInArms_flag]

/-! ### Claim C5 -/

/-- The classifier agrees with the spec's decision table on every context
realization and every statement. -/
theorem is_idempotent_toCleanup (ctx : Context) (lbl : Label) (s : Stmt) :
    (ctx.toCleanup lbl).is_idempotent_tail_expr s = specIdempotentTail ctx s := by
  rcases s with e | e | t
  · cases ctx <;> rfl
  · cases ctx with
    | implicitReturnZero =>
        rcases e with ⟨c1, b1, e1⟩ | ⟨sc, cs⟩ | ⟨bs, bl⟩ | ⟨lb, v⟩ | v | k | tg <;> try rfl
        rcases v with _ | ve
        · rfl
        · rcases ve with ⟨c1, b1, e1⟩ | ⟨sc, cs⟩ | ⟨bs, bl⟩ | ⟨lb, w⟩ | w | k | tg <;> try rfl
          rcases k with ⟨n, suf⟩ | f | b | st <;> try rfl
          rcases n with _ | n <;> rcases suf with _ | _ | _ <;> rfl
    | implicitReturnVoid =>
        rcases e with ⟨c1, b1, e1⟩ | ⟨sc, cs⟩ | ⟨bs, bl⟩ | ⟨lb, v⟩ | v | k | tg <;> try rfl
        rcases v with _ | ve <;> rfl
    | implicitBreakTo l2 =>
        rcases e with ⟨c1, b1, e1⟩ | ⟨sc, cs⟩ | ⟨bs, bl⟩ | ⟨lb, v⟩ | v | k | tg <;> try rfl
        rcases lb with _ | name <;> rcases v with _ | ve <;> rfl
  · cases ctx <;> rfl

/-- C5: `isIdempotentTail(context, statement)` holds if and only if the
statement is a bare effect-expression whose expression exactly matches the
decision table: `return 0` (unsuffixed integer literal) under
`ImplicitReturnZero`, a valueless `return` under `ImplicitReturnVoid`, a
valueless `break` naming the context label under `ImplicitBreakTo(L)`; every
other shape is not idempotent. -/
theorem C5_classifier_decision_table :
    ∀ (ctx : Context) (lbl : Label) (s : Stmt),
      (ctx.toCleanup lbl).is_idempotent_tail_expr s = specIdempotentTail ctx s :=
  is_idempotent_toCleanup

/-! ### Claim C6 -/

/-- Under `ImplicitReturnZero` the spec table matches exactly the
semicolon-terminated `return 0` statement. -/
theorem specIdempotentTail_returnZero_iff (s : Stmt) :
    specIdempotentTail Context.implicitReturnZero s = true ↔
      s = Stmt.semi (Expr.ret (some (Expr.lit (LitKind.int 0 LitIntType.unsuffixed)))) := by
  constructor
  · intro h
    unfold specIdempotentTail at h
    split at h
    · split at h <;> simp_all
    · simp at h
  · intro h
    subst h
    rfl

/-- C6: under `ImplicitReturnZero` only a semicolon-terminated Return of the
integer literal 0 is ever judged idempotent; Scenario B removes `[Return(0)]`
returning true; Scenario C retains `[Return(1)]` unchanged returning false; and
a Return of any other payload is retained unchanged with result false. -/
theorem C6_return_zero_precision :
    (∀ (lbl : Label) (s : Stmt),
      (IncCleanup.mk (some ImplicitReturnType.Main) lbl).is_idempotent_tail_expr s = true ↔
        s = Stmt.semi (Expr.ret (some (Expr.lit (LitKind.int 0 LitIntType.unsuffixed))))) ∧
    (∀ lbl : Label,
      (IncCleanup.mk (some ImplicitReturnType.Main) lbl).remove_tail_expr
          [Stmt.semi (Expr.ret (some (Expr.lit (LitKind.int 0 LitIntType.unsuffixed))))] =
        ([], true)) ∧
    (∀ lbl : Label,
      (IncCleanup.mk (some ImplicitReturnType.Main) lbl).remove_tail_expr
          [Stmt.semi (Expr.ret (some (Expr.lit (LitKind.int 1 LitIntType.unsuffixed))))] =
        ([Stmt.semi (Expr.ret (some (Expr.lit (LitKind.int 1 LitIntType.unsuffixed))))],
          false)) ∧
    (∀ (lbl : Label) (v : Option Expr),
      v ≠ some (Expr.lit (LitKind.int 0 LitIntType.unsuffixed)) →
      (IncCleanup.mk (some ImplicitReturnType.Main) lbl).remove_tail_expr
          [Stmt.semi (Expr.ret v)] = ([Stmt.semi (Expr.ret v)], false)) := by
  have hconv : ∀ lbl : Label,
      IncCleanup.mk (some ImplicitReturnType.Main) lbl =
        Context.implicitReturnZero.toCleanup lbl := fun _ => rfl
  refine ⟨?_, ?_, ?_, ?_⟩
  · intro lbl s
    rw [hconv lbl, is_idempotent_toCleanup]
    exact specIdempotentTail_returnZero_iff s
  · intro lbl
    rw [remove_tail_expr_single]
    exact if_pos rfl
  · intro lbl
    rw [remove_tail_expr_single, if_neg (by simp [IncCleanup.is_idempotent_tail_expr]),
      removeTailInStmt_semi, cleanup_if_semi]
  · intro lbl v hv
    have hid : (IncCleanup.mk (some ImplicitReturnType.Main) lbl).is_idempotent_tail_expr
        (Stmt.semi (Expr.ret v)) = false := by
      rw [hconv lbl, is_idempotent_toCleanup]
      rcases hb : specIdempotentTail Context.implicitReturnZero (Stmt.semi (Expr.ret v)) with
        _ | _
      · rfl
      · exfalso
        have := (specIdempotentTail_returnZero_iff _).mp hb
        simp only [Stmt.semi.injEq, Expr.ret.injEq] at this
        exact hv this
    rw [remove_tail_expr_single, if_neg (by simp [hid]), removeTailInStmt_semi,
      cleanup_if_semi]

/-- Witness for C6 at a concrete input: under `ImplicitReturnZero` a
semicolon-terminated `return 2;` is retained unchanged with result false. -/
theorem C6_witness :
    (IncCleanup.mk (some ImplicitReturnType.Main) (Label.mk 0 "lp")).remove_tail_expr
        [Stmt.semi (Expr.ret (some (Expr.lit (LitKind.int 2 LitIntType.unsuffixed))))] =
      ([Stmt.semi (Expr.ret (some (Expr.lit (LitKind.int 2 LitIntType.unsuffixed))))],
        false) :=
  C6_return_zero_precision.2.2.2 (Label.mk 0 "lp")
    (some (Expr.lit (LitKind.int 2 LitIntType.unsuffixed))) (by simp)

/-! ### Stability of a removal-free pass (towards C4) -/

theorem cleanup_if_if_none (cond : Expr) (body : List Stmt) :
    cleanup_if (Stmt.expr (Expr.if_ cond body none)) =
      Stmt.expr (Expr.if_ cond body none) := rfl

theorem cleanup_if_match (scrut : Expr) (cases : List Arm) :
    cleanup_if (Stmt.expr (Expr.match_ scrut cases)) =
      Stmt.expr (Expr.match_ scrut cases) := rfl

/-- A statement that is not idempotent stays not idempotent after the
recursion step, which preserves the statement's kind. -/
theorem is_idempotent_removeTailInStmt (c : IncCleanup) (s : Stmt)
    (h : c.is_idempotent_tail_expr s = false) :
    c.is_idempotent_tail_expr (c.removeTailInStmt s).1 = false := by
  rcases s with e | e | t
  · simp [removeTailInStmt_expr, is_idempotent_expr]
  · simpa [removeTailInStmt_semi] using h
  · simpa [removeTailInStmt_other] using h

/-- If every block-bodied arm of `cases` has a stable cleaned block, then a
removal-free pass over the arms is itself stable: running the loop again over
its own output changes nothing and reports no removal. -/
theorem removeTailInArms_stable (c : IncCleanup) :
    ∀ cases : List Arm,
      (∀ (stmts : List Stmt) (lbl : Option String),
        Arm.mk (Expr.block stmts lbl) ∈ cases →
        ∀ out : List Stmt, c.remove_tail_expr stmts = (out, false) →
          c.remove_tail_expr out = (out, false)) →
      ∀ cases1 : List Arm, c.removeTailInArms cases false = (cases1, false) →
        c.removeTailInArms cases1 false = (cases1, false) := by
  intro cases
  induction cases with
  | nil =>
      intro H cases1 h
      rw [removeTailInArms_nil] at h
      obtain ⟨h1, -⟩ := Prod.mk.inj h
      subst h1
      rfl
  | cons arm rest ih =>
      intro H cases1 h
      rcases arm with ⟨body⟩
      rcases body with ⟨c1, b1, e1⟩ | ⟨sc, cs⟩ | ⟨bs, bl⟩ | ⟨lb, v⟩ | v | k | tg
      case block =>
        rw [removeTailInArms_cons_block] at h
        obtain ⟨h1, h2⟩ := Prod.mk.inj h
        have hflag := removeTailInArms_flag c rest (c.remove_tail_expr bs).2
        rw [h2] at hflag
        have hrb : (c.remove_tail_expr bs).2 = false := by
          rcases hb : (c.remove_tail_expr bs).2 with _ | _
          · rfl
          · rw [hb] at hflag
            simp at hflag
        rw [hrb] at h1 h2
        have hbs : c.remove_tail_expr bs = ((c.remove_tail_expr bs).1, false) :=
          Prod.ext rfl hrb
        have hbs1 : c.remove_tail_expr (c.remove_tail_expr bs).1 =
            ((c.remove_tail_expr bs).1, false) :=
          H bs bl (List.mem_cons_self _ _) (c.remove_tail_expr bs).1 hbs
        have hrest : c.removeTailInArms rest false =
            ((c.removeTailInArms rest false).1, false) :=
          Prod.ext rfl h2
        have hrest1 := ih
          (fun stmts lbl hmem => H stmts lbl (List.mem_cons_of_mem _ hmem))
          (c.removeTailInArms rest false).1 hrest
        subst h1
        rw [removeTailInArms_cons_block, hbs1]
        simp only [hrest1]
      all_goals
        simp only [IncCleanup.removeTailInArms] at h
        obtain ⟨h1, h2⟩ := Prod.mk.inj h
        have hrest : c.removeTailInArms rest false =
            ((c.removeTailInArms rest false).1, false) :=
          Prod.ext rfl h2
        have hrest1 := ih
          (fun stmts lbl hmem => H stmts lbl (List.mem_cons_of_mem _ hmem))
          (c.removeTailInArms rest false).1 hrest
        subst h1
        simp only [IncCleanup.removeTailInArms, hrest1]

theorem cleanup_if_collapse (cond : Expr) (body : List Stmt) :
    cleanup_if (Stmt.expr (Expr.if_ cond body (some (Expr.block [] none)))) =
      Stmt.expr (Expr.if_ cond body none) := rfl

/-- A removal-free recursion step is a fixpoint at the statement level: if the
recursion into a retained statement removed nothing, then re-running the
recursion on the simplified reinserted statement changes nothing and again
reports no removal.  The hypothesis `Hrec` supplies the same property for the
strictly smaller statement sequences nested in the statement. -/
theorem removeTailInStmt_false_fix (c : IncCleanup) (s : Stmt)
    (Hrec : ∀ stmts : List Stmt, sizeOf stmts < sizeOf s →
      ∀ out : List Stmt, c.remove_tail_expr stmts = (out, false) →
        c.remove_tail_expr out = (out, false))
    (hflag : (c.removeTailInStmt s).2 = false) :
    c.removeTailInStmt (cleanup_if (c.removeTailInStmt s).1) =
      (cleanup_if (c.removeTailInStmt s).1, false) := by
  rcases s with e | e | t
  case semi => simp [removeTailInStmt_semi, cleanup_if_semi]
  case other => simp [removeTailInStmt_other, cleanup_if_other]
  case expr =>
  rcases e with ⟨cond, body, els⟩ | ⟨sc, cs⟩ | ⟨bs, bl⟩ | ⟨lb, v⟩ | v | k | tg
  case match_ =>
    have hf : (c.removeTailInArms cs false).2 = false := by
      simpa [removeTailInStmt_expr, removeTailInExpr_match] using hflag
    have harms : c.removeTailInArms cs false = ((c.removeTailInArms cs false).1, false) :=
      Prod.ext rfl hf
    have hstab := removeTailInArms_stable c cs
      (fun stmts lbl hmem => by
        have hm := List.sizeOf_lt_of_mem hmem
        simp only [Arm.mk.sizeOf_spec, Expr.block.sizeOf_spec] at hm
        refine Hrec stmts ?_
        simp only [Stmt.expr.sizeOf_spec, Expr.match_.sizeOf_spec]
        omega)
      (c.removeTailInArms cs false).1 harms
    simp only [removeTailInStmt_expr, removeTailInExpr_match, cleanup_if_match]
    rw [hstab]
  case if_ =>
    rcases els with _ | e2
    · have hb2 : (c.remove_tail_expr body).2 = false := by
        simpa [removeTailInStmt_expr, removeTailInExpr_if_none] using hflag
      have hbody : c.remove_tail_expr body = ((c.remove_tail_expr body).1, false) :=
        Prod.ext rfl hb2
      have hsz : sizeOf body < sizeOf (Stmt.expr (Expr.if_ cond body none)) := by
        simp
        omega
      have hstab := Hrec body hsz (c.remove_tail_expr body).1 hbody
      simp only [removeTailInStmt_expr, removeTailInExpr_if_none, cleanup_if_if_none]
      rw [hstab]
    · rcases e2 with ⟨c2, b2, e3⟩ | ⟨sc2, cs2⟩ | ⟨bs, bl⟩ | ⟨lb2, v2⟩ | v2 | k2 | tg2
      case block =>
        by_cases hrb : (c.remove_tail_expr body).2 = true
        · exfalso
          rw [removeTailInStmt_expr] at hflag
          simp only [removeTailInExpr_if_block, hrb, if_pos] at hflag
          simp [hrb] at hflag
        · have hrb2 : (c.remove_tail_expr body).2 = false := by
            simpa using hrb
          have hb2 : (c.remove_tail_expr bs).2 = false := by
            simpa [removeTailInStmt_expr, removeTailInExpr_if_block, hrb2] using hflag
          have hbody : c.remove_tail_expr body = ((c.remove_tail_expr body).1, false) :=
            Prod.ext rfl hrb2
          have hbs : c.remove_tail_expr bs = ((c.remove_tail_expr bs).1, false) :=
            Prod.ext rfl hb2
          have hszb : sizeOf body <
              sizeOf (Stmt.expr (Expr.if_ cond body (some (Expr.block bs bl)))) := by
            simp
            omega
          have hszs : sizeOf bs <
              sizeOf (Stmt.expr (Expr.if_ cond body (some (Expr.block bs bl)))) := by
            simp
            omega
          have hstabb := Hrec body hszb (c.remove_tail_expr body).1 hbody
          have hstabs := Hrec bs hszs (c.remove_tail_expr bs).1 hbs
          simp only [removeTailInStmt_expr, removeTailInExpr_if_block, hrb2,
            Bool.false_eq_true, if_false]
          rcases hbs1 : (c.remove_tail_expr bs).1 with _ | ⟨a1, l1⟩
          · rcases bl with _ | lb
            · rw [cleanup_if_collapse, removeTailInStmt_expr, removeTailInExpr_if_none,
                hstabb]
            · rw [cleanup_if_of_not_collapsible _
                (collapsibleIf_else_labelled cond (c.remove_tail_expr body).1 [] lb),
                removeTailInStmt_expr, removeTailInExpr_if_block, hstabb]
              simp only [Bool.false_eq_true, if_false]
              rw [← hbs1, hstabs, hbs1]
          · rw [cleanup_if_of_not_collapsible _
              (collapsibleIf_else_cons cond (c.remove_tail_expr body).1 a1 l1 bl),
              removeTailInStmt_expr, removeTailInExpr_if_block, hstabb]
            simp only [Bool.false_eq_true, if_false]
            rw [← hbs1, hstabs, hbs1]
      all_goals
        have hb2 : (c.remove_tail_expr body).2 = false := by
          simpa [removeTailInStmt_expr, IncCleanup.removeTailInExpr] using hflag
        have hbody : c.remove_tail_expr body = ((c.remove_tail_expr body).1, false) :=
          Prod.ext rfl hb2
        have hstab := Hrec body (by simp; omega) (c.remove_tail_expr body).1 hbody
        simp only [removeTailInStmt_expr, IncCleanup.removeTailInExpr, cleanup_if, hstab]
  all_goals
    simp [removeTailInStmt_expr, IncCleanup.removeTailInExpr, cleanup_if]

/-- Strong-induction core: a removal-free pass of the engine is a fixpoint. -/
theorem remove_tail_expr_false_fix_aux :
    ∀ (n : Nat) (c : IncCleanup) (stmts out : List Stmt), sizeOf stmts ≤ n →
      c.remove_tail_expr stmts = (out, false) → c.remove_tail_expr out = (out, false) := by
  intro n
  induction n using Nat.strong_induction_on with
  | _ n ih =>
    intro c stmts out hsize heq
    rcases stmts with _ | ⟨s, rest⟩
    · rw [remove_tail_expr_nil] at heq
      obtain ⟨h1, -⟩ := Prod.mk.inj heq
      subst h1
      rfl
    · rcases rest with _ | ⟨b, l⟩
      · rw [remove_tail_expr_single] at heq
        by_cases hid : c.is_idempotent_tail_expr s = true
        · rw [if_pos hid] at heq
          exact absurd (Prod.mk.inj heq).2 (by simp)
        · rw [if_neg hid] at heq
          obtain ⟨hout, hflag⟩ := Prod.mk.inj heq
          have hid2 : c.is_idempotent_tail_expr s = false := by
            simpa using hid
          have key := removeTailInStmt_false_fix c s
            (fun stmts2 hsz2 out2 heq2 => ih (sizeOf stmts2)
              (by
                have h2 : sizeOf s < sizeOf [s] := by
                  simp only [List.cons.sizeOf_spec, List.nil.sizeOf_spec]
                  omega
                omega)
              c stmts2 out2 le_rfl heq2)
            hflag
          subst hout
          rw [remove_tail_expr_single,
            if_neg (by
              simp [is_idempotent_cleanup_if c _
                (is_idempotent_removeTailInStmt c s hid2)]),
            key, cleanup_if_cleanup_if]
      · rw [remove_tail_expr_cons_cons] at heq
        obtain ⟨hout, hflag⟩ := Prod.mk.inj heq
        have hsub : c.remove_tail_expr (b :: l) =
            ((c.remove_tail_expr (b :: l)).1, false) :=
          Prod.ext rfl hflag
        have hlt : sizeOf (b :: l) < n := by
          have h1 : sizeOf (b :: l) < sizeOf (s :: b :: l) := by
            simp only [List.cons.sizeOf_spec]
            omega
          omega
        have hstab := ih (sizeOf (b :: l)) hlt c (b :: l)
          (c.remove_tail_expr (b :: l)).1 le_rfl hsub
        have hne := remove_tail_expr_ne_nil c b l hflag
        subst hout
        rcases hx : (c.remove_tail_expr (b :: l)).1 with _ | ⟨x, xs⟩
        · exact absurd hx hne
        · rw [hx] at hstab
          rw [remove_tail_expr_cons_cons, hstab]

/-! ### Claim C4 -/

/-- C4 counterexample: the engine is not idempotent.  On Scenario A's input the
first call removes the then-block's Break and returns true, but leaves the
else-block's Break behind (short-circuit); the second call on the leftover
sequence removes that Break, collapses the emptied else, and returns true —
it neither leaves the sequence unchanged nor returns false. -/
theorem C4_counterexample :
    (IncCleanup.mk none (Label.mk 0 "lp")).remove_tail_expr
        [Stmt.expr (Expr.if_ (Expr.other 0)
          [Stmt.semi (Expr.break_ (some "lp") none)]
          (some (Expr.block [Stmt.semi (Expr.break_ (some "lp") none)] none)))] =
      ([Stmt.expr (Expr.if_ (Expr.other 0) []
          (some (Expr.block [Stmt.semi (Expr.break_ (some "lp") none)] none)))], true) ∧
    (IncCleanup.mk none (Label.mk 0 "lp")).remove_tail_expr
        [Stmt.expr (Expr.if_ (Expr.other 0) []
          (some (Expr.block [Stmt.semi (Expr.break_ (some "lp") none)] none)))] =
      ([Stmt.expr (Expr.if_ (Expr.other 0) [] none)], true) ∧
    (IncCleanup.mk none (Label.mk 0 "lp")).remove_tail_expr
        [Stmt.expr (Expr.if_ (Expr.other 0) []
          (some (Expr.block [Stmt.semi (Expr.break_ (some "lp") none)] none)))] ≠
      ([Stmt.expr (Expr.if_ (Expr.other 0) []
          (some (Expr.block [Stmt.semi (Expr.break_ (some "lp") none)] none)))], false) := by
  refine ⟨rfl, rfl, ?_⟩
  rw [show (IncCleanup.mk none (Label.mk 0 "lp")).remove_tail_expr
      [Stmt.expr (Expr.if_ (Expr.other 0) []
        (some (Expr.block [Stmt.semi (Expr.break_ (some "lp") none)] none)))] =
      ([Stmt.expr (Expr.if_ (Expr.other 0) [] none)], true) from rfl]
  simp

/-- C4 amended: the engine is idempotent only on removal-free passes: a call
that returns false leaves a sequence on which a second call mutates nothing and
returns false; a call that returns true can leave further removable statements
behind (because the short-circuiting accumulation skips the else branch and
the later arms), so a second call may mutate again and return true. -/
theorem C4_amended_false_is_fixpoint :
    ∀ (c : IncCleanup) (stmts out : List Stmt),
      c.remove_tail_expr stmts = (out, false) → c.remove_tail_expr out = (out, false) :=
  fun c stmts out h =>
    remove_tail_expr_false_fix_aux (sizeOf stmts) c stmts out le_rfl h

/-- Witness for C4 at a concrete input: a call that returns false (collapsing
an already empty else branch) leaves a sequence that a second call maps to
itself with result false. -/
theorem C4_witness :
    (IncCleanup.mk none (Label.mk 0 "lp")).remove_tail_expr
        [Stmt.expr (Expr.if_ (Expr.other 0) [] none)] =
      ([Stmt.expr (Expr.if_ (Expr.other 0) [] none)], false) :=
  C4_amended_false_is_fixpoint (IncCleanup.mk none (Label.mk 0 "lp"))
    [Stmt.expr (Expr.if_ (Expr.other 0) [] (some (Expr.block [] none)))]
    [Stmt.expr (Expr.if_ (Expr.other 0) [] none)] (by rfl)
